import Mathlib

/-!
Verification development for the parallel simulation-job runner
(`simulationRun.py`).  The scheduler `run_jobs_in_parallel` and the helper
`format_duration` are embedded shallowly: Python numbers are modelled as
`Nat`/`Int`/`ℚ`, the directory listing as a `List String`, the running
process table as a list of records, wall-clock time as a counter advanced by
the fixed 15-unit sleep, and every console print as an abstract `Event`.
External processes are modelled by a `Behavior` oracle giving, per job name,
the number of polling rounds until `poll()` returns and the eventual exit
code.
-/

set_option maxHeartbeats 1000000
set_option maxRecDepth 4000

namespace SimulationRun

/-- Truncation toward zero, the behaviour of Python `int()` on a number. -/
def intTrunc (q : ℚ) : ℤ := if q < 0 then ⌈q⌉ else ⌊q⌋

/-- Embedding of `format_duration` (lines 29-32): `divmod(seconds, 60)`
followed by the f-string with `int(mins)` and `int(secs)`.  Python
`divmod(a, 60)` on numbers returns `(⌊a/60⌋, a - 60*⌊a/60⌋)`. -/
def format_duration (seconds : ℚ) : String :=
  let mins : ℚ := ((⌊seconds / 60⌋ : ℤ) : ℚ)
  let secs : ℚ := seconds - 60 * ((⌊seconds / 60⌋ : ℤ) : ℚ)
  toString (intTrunc mins) ++ ("m ") ++ toString (intTrunc secs) ++ ("s")

/-- Lexicographic comparison of character lists, by code points; this is
the order Python's `sorted` uses on strings. -/
def charListLe : List Char → List Char → Bool
  | [], _ => true
  | _ :: _, [] => false
  | a :: as, b :: bs => if a = b then charListLe as bs else decide (a < b)

/-- Lexicographic order on strings, by code points. -/
def strLe (a b : String) : Bool := charListLe a.toList b.toList

/-- The order on strings as a relation, for use with `List.insertionSort`. -/
def strLeProp (a b : String) : Prop := strLe a b = true

instance : DecidableRel strLeProp := fun a b =>
  inferInstanceAs (Decidable (strLe a b = true))

/-- Model of Python `f.endswith('.inp')`: the last four characters are
`.inp`. -/
def endsWithDotInp (f : String) : Bool :=
  let cs := f.toList
  decide (4 ≤ cs.length) &&
    cs.drop (cs.length - 4) == ('.') :: ('i') :: ('n') :: ('p') :: []

/-- Index of the last occurrence of a dot in a character list, if any. -/
def lastDotIndex : List Char → Option Nat
  | [] => none
  | c :: rest =>
      match lastDotIndex rest with
      | some i => some (i + 1)
      | none => if c = ('.') then some 0 else none

/-- Root part of `os.path.splitext` for a bare file name (no separators):
split at the last dot, unless every character before that dot is itself a
dot (then there is no extension). -/
def splitextRoot (f : String) : String :=
  let cs := f.toList
  match lastDotIndex cs with
  | none => f
  | some i =>
      if (cs.take i).any (fun c => decide (c ≠ ('.'))) then
        String.mk (cs.take i)
      else f

/-- Embedding of the discovery step (lines 42-43): keep the `.inp` files
from the directory listing, take the base names, and sort them
lexicographically.  Python's `sorted` is modelled by insertion sort: on a
linear order every comparison sort produces the same list. -/
def discoverJobs (dirListing : List String) : List String :=
  let inp_files := dirListing.filter (fun f => endsWithDotInp f)
  (inp_files.map splitextRoot).insertionSort strLeProp

/-- File open mode; the code opens every log with mode `w` (truncate). -/
inductive FileMode
  | write
  | append
deriving DecidableEq

/-- Observable actions of one run: console prints and file operations. -/
inductive Event
  | starting (name : String) (running : Nat)
  | logOpen (name : String) (path : String) (mode : FileMode)
  | launched (name : String) (cwd : String) (stdoutDest : String) (stderrDest : String)
  | outcome (name : String) (success : Bool) (duration : Nat) (completed : Nat) (total : Nat)
  | slept (secs : Nat)
  | allDone (total : Nat)
deriving DecidableEq

/-- Oracle for the external processes: polling rounds until termination and
the exit code, per job name. -/
structure Behavior where
  dur : String → Nat
  exitCode : String → Int

/-- Fixed data of one call of `run_jobs_in_parallel`. -/
structure Config where
  sim_dir : String
  num_parallel : Int
  beh : Behavior
  total_jobs : Nat

/-- One entry of `active_processes`: the process with its attached job
name, start time and log file (line 111-113). -/
structure RunningJob where
  job_name : String
  remaining : Nat
  exitCode : Int
  start_time : Nat
  log_path : String
deriving DecidableEq

/-- Mutable state of the admission loop: the queue `job_names_to_run`, the
table `active_processes`, the counter `completed_jobs`, the clock, and the
events emitted so far. -/
structure SchedState where
  queue : List String
  active : List RunningJob
  completed_jobs : Nat
  time : Nat
  events : List Event
deriving DecidableEq

/-- Model of `p.poll() is not None`: the process has terminated. -/
def pollDone (r : RunningJob) : Bool := r.remaining == 0

/-- The log file path `os.path.join(sim_dir, job + ".log")` (line 101). -/
def log_path_for (cfg : Config) (j : String) : String :=
  cfg.sim_dir ++ ("/") ++ j ++ (".log")

/-- The outcome line printed for a retired process (lines 80-87). -/
def outcomeEvent (cfg : Config) (now : Nat) (completed : Nat) (r : RunningJob) : Event :=
  Event.outcome r.job_name (r.exitCode == 0) (now - r.start_time) completed cfg.total_jobs

/-- The `for p in finished_processes` body (lines 66-87): pop each finished
process, close its log, increment `completed_jobs`, print the outcome. -/
def retireList (cfg : Config) (st : SchedState) : List RunningJob → SchedState
  | [] => st
  | r :: rs =>
      retireList cfg
        { st with
            completed_jobs := st.completed_jobs + 1,
            events := st.events ++ [outcomeEvent cfg st.time (st.completed_jobs + 1) r] } rs

/-- Step 1 of each iteration (lines 65-87): remove the finished processes
from `active_processes` and report each of them. -/
def retirePhase (cfg : Config) (st : SchedState) : SchedState :=
  retireList cfg
    { st with active := st.active.filter (fun r => !(pollDone r)) }
    (st.active.filter pollDone)

/-- The record registered for a freshly launched job. -/
def newJob (cfg : Config) (t : Nat) (j : String) : RunningJob :=
  { job_name := j, remaining := cfg.beh.dur j, exitCode := cfg.beh.exitCode j,
    start_time := t, log_path := log_path_for cfg j }

/-- The body of the inner `while` (lines 91-113) for one job: print the
starting line, open the log file with mode `w`, start the process with both
streams redirected into it, register it in `active_processes`. -/
def launch (cfg : Config) (st : SchedState) (j : String) : SchedState :=
  { st with
      active := st.active ++ [newJob cfg st.time j],
      events := st.events ++
        [Event.starting j (st.active.length + 1),
         Event.logOpen j (log_path_for cfg j) FileMode.write,
         Event.launched j cfg.sim_dir (log_path_for cfg j) (log_path_for cfg j)] }

/-- Step 2 of each iteration (line 90): `while len(active_processes) <
num_parallel and job_names_to_run:` pop the head of the queue and launch
it. -/
def fillAux (cfg : Config) : List String → SchedState → SchedState
  | [], st => { st with queue := [] }
  | j :: rest, st =>
      if (st.active.length : Int) < cfg.num_parallel then
        fillAux cfg rest (launch cfg st j)
      else { st with queue := j :: rest }

/-- Step 2 of each iteration, applied to the state's own queue. -/
def fillPhase (cfg : Config) (st : SchedState) : SchedState :=
  fillAux cfg st.queue st

/-- Step 3 of each iteration (line 116): `time.sleep(15)`.  Fifteen time
units pass, during which every running process gets closer to
termination. -/
def sleepPhase (st : SchedState) : SchedState :=
  { st with
      time := st.time + 15,
      events := st.events ++ [Event.slept 15],
      active := st.active.map (fun r => { r with remaining := r.remaining - 1 }) }

/-- One full iteration of the `while job_names_to_run or active_processes`
body. -/
def step (cfg : Config) (st : SchedState) : SchedState :=
  sleepPhase (fillPhase cfg (retirePhase cfg st))

/-- Negation of the loop guard `job_names_to_run or active_processes`. -/
def loopDone (st : SchedState) : Bool := st.queue.isEmpty && st.active.isEmpty

/-- The admission loop (lines 63-116), fuelled: `none` means the fuel ran
out before the guard became false. -/
def runLoop (cfg : Config) : Nat → SchedState → Option SchedState
  | 0, st => if loopDone st then some st else none
  | fuel + 1, st => if loopDone st then some st else runLoop cfg fuel (step cfg st)

/-- The loop state after `n` iterations. -/
def stepN (cfg : Config) : Nat → SchedState → SchedState
  | 0, st => st
  | n + 1, st => stepN cfg n (step cfg st)

/-- State at entry of the loop. -/
def initState (jobs : List String) : SchedState :=
  { queue := jobs, active := [], completed_jobs := 0, time := 0, events := [] }

/-- The final console line (line 119). -/
def allDoneLine (total : Nat) : String :=
  ("--- All ") ++ toString total ++ (" simulation jobs have been completed. ---")

/-- Result of one call of `run_jobs_in_parallel`: the directory was
missing (lines 44-47), no `.inp` file was found (lines 49-51), or the loop
finished and the final message was printed. -/
inductive RunResult
  | dirMissing
  | noJobs
  | finished (st : SchedState)
deriving DecidableEq

/-- Embedding of `run_jobs_in_parallel` (lines 35-119).  `dirListing` is
`none` when `os.listdir` raises `FileNotFoundError`.  The fuel bounds the
number of loop iterations; `none` means it did not suffice. -/
def run_jobs_in_parallel (sim_dir : String) (num_parallel : Int) (beh : Behavior)
    (dirListing : Option (List String)) (fuel : Nat) : Option RunResult :=
  match dirListing with
  | none => some RunResult.dirMissing
  | some files =>
      let jobs := discoverJobs files
      if jobs.isEmpty then some RunResult.noJobs
      else
        let cfg : Config :=
          { sim_dir := sim_dir, num_parallel := num_parallel, beh := beh,
            total_jobs := jobs.length }
        (runLoop cfg fuel (initState jobs)).map
          (fun st =>
            RunResult.finished
              { st with events := st.events ++ [Event.allDone cfg.total_jobs] })

/-! ### Event extractors and trace vocabulary -/

/-- The job name of a starting line, if the event is one. -/
def startName? : Event → Option String
  | Event.starting j _ => some j
  | _ => none

/-- The job name of an outcome line, if the event is one. -/
def outcomeName? : Event → Option String
  | Event.outcome j _ _ _ _ => some j
  | _ => none

/-- The job name of a log-file creation, if the event is one. -/
def logOpenName? : Event → Option String
  | Event.logOpen j _ _ => some j
  | _ => none

/-- The job name of a process creation, if the event is one. -/
def launchedName? : Event → Option String
  | Event.launched j _ _ _ => some j
  | _ => none

/-- Names of the jobs started so far, in admission order. -/
def startNames (es : List Event) : List String := es.filterMap startName?

/-- Names of the jobs retired so far, in retirement order. -/
def outcomeNames (es : List Event) : List String := es.filterMap outcomeName?

/-- Names of the jobs whose log file was created, in order. -/
def logOpenNames (es : List Event) : List String := es.filterMap logOpenName?

/-- Names of the jobs whose process was created, in order. -/
def launchedNames (es : List Event) : List String := es.filterMap launchedName?

/-- Recognizer for the final all-done message. -/
def isAllDoneEvent : Event → Bool
  | Event.allDone _ => true
  | _ => false

/-- Number of all-done messages in a trace. -/
def countAllDone (es : List Event) : Nat := (es.filter isAllDoneEvent).length

/-- Recognizer for a SUCCESS outcome line. -/
def isSuccessEvent : Event → Bool
  | Event.outcome _ true _ _ _ => true
  | _ => false

/-- Number of SUCCESS lines in a trace. -/
def successCount (es : List Event) : Nat := (es.filter isSuccessEvent).length

/-- The block of outcome lines the retirement loop prints for the finished
processes `l`, starting from completed-count `c`, at time `now`. -/
def outcomeEvents (cfg : Config) (now : Nat) : List RunningJob → Nat → List Event
  | [], _ => []
  | r :: rs, c => outcomeEvent cfg now (c + 1) r :: outcomeEvents cfg now rs (c + 1)

/-- The block of events the admission loop emits when it launches the jobs
`js` in order, starting with `baseLen` processes already running. -/
def launchEvents (cfg : Config) (baseLen : Nat) : List String → List Event
  | [] => []
  | j :: js =>
      Event.starting j (baseLen + 1) ::
      Event.logOpen j (log_path_for cfg j) FileMode.write ::
      Event.launched j cfg.sim_dir (log_path_for cfg j) (log_path_for cfg j) ::
      launchEvents cfg (baseLen + 1) js

/-! ### Phase specifications -/

theorem retireList_spec (cfg : Config) :
    ∀ (l : List RunningJob) (st : SchedState),
      retireList cfg st l =
        { st with
            completed_jobs := st.completed_jobs + l.length,
            events := st.events ++ outcomeEvents cfg st.time l st.completed_jobs } := by
  intro l
  induction l with
  | nil => intro st; simp [retireList, outcomeEvents]
  | cons r rs ih =>
      intro st
      rw [retireList, ih]
      simp only [outcomeEvents, List.length_cons]
      congr 1
      all_goals first
        | omega
        | simp

theorem retirePhase_eq (cfg : Config) (st : SchedState) :
    retirePhase cfg st =
      { st with
          active := st.active.filter (fun r => !(pollDone r)),
          completed_jobs := st.completed_jobs + (st.active.filter pollDone).length,
          events := st.events ++
            outcomeEvents cfg st.time (st.active.filter pollDone) st.completed_jobs } := by
  rw [retirePhase, retireList_spec]

theorem fillAux_spec (cfg : Config) :
    ∀ (q : List String) (st : SchedState),
      ∃ k, k ≤ q.length ∧
        fillAux cfg q st =
          { queue := q.drop k,
            active := st.active ++ (q.take k).map (newJob cfg st.time),
            completed_jobs := st.completed_jobs,
            time := st.time,
            events := st.events ++ launchEvents cfg st.active.length (q.take k) } ∧
        (1 ≤ k → ((st.active.length + k : Nat) : Int) ≤ cfg.num_parallel) ∧
        (q.drop k ≠ [] → ¬ (((st.active.length + k : Nat) : Int) < cfg.num_parallel)) := by
  intro q
  induction q with
  | nil =>
      intro st
      refine ⟨0, by simp, ?_, by omega, by simp⟩
      simp [fillAux, launchEvents]
  | cons j rest ih =>
      intro st
      by_cases h : (st.active.length : Int) < cfg.num_parallel
      · obtain ⟨k, hk, heq, hcap, hstop⟩ := ih (launch cfg st j)
        have hlen : (launch cfg st j).active.length = st.active.length + 1 := by
          simp [launch]
        refine ⟨k + 1, by simpa using Nat.succ_le_succ hk, ?_, ?_, ?_⟩
        · rw [fillAux, if_pos h, heq]
          simp [launch, launchEvents, List.take_succ_cons, List.drop_succ_cons,
            List.append_assoc]
        · intro _
          rcases Nat.eq_zero_or_pos k with hk0 | hk1
          · subst hk0
            push_cast
            omega
          · have h2 := hcap hk1
            rw [hlen] at h2
            push_cast at h2 ⊢
            omega
        · intro hne
          rw [List.drop_succ_cons] at hne
          have h2 := hstop hne
          rw [hlen] at h2
          push_cast at h2 ⊢
          omega
      · refine ⟨0, by simp, ?_, by omega, ?_⟩
        · rw [fillAux, if_neg h]
          simp [launchEvents]
        · intro _
          simpa using h

theorem fillPhase_spec (cfg : Config) (st : SchedState) :
    ∃ k, k ≤ st.queue.length ∧
      fillPhase cfg st =
        { queue := st.queue.drop k,
          active := st.active ++ (st.queue.take k).map (newJob cfg st.time),
          completed_jobs := st.completed_jobs,
          time := st.time,
          events := st.events ++ launchEvents cfg st.active.length (st.queue.take k) } ∧
      (1 ≤ k → ((st.active.length + k : Nat) : Int) ≤ cfg.num_parallel) ∧
      (st.queue.drop k ≠ [] → ¬ (((st.active.length + k : Nat) : Int) < cfg.num_parallel)) :=
  fillAux_spec cfg st.queue st

/-! ### Trace bookkeeping lemmas -/

theorem startNames_append (es ds : List Event) :
    startNames (es ++ ds) = startNames es ++ startNames ds := by
  simp [startNames]

theorem outcomeNames_append (es ds : List Event) :
    outcomeNames (es ++ ds) = outcomeNames es ++ outcomeNames ds := by
  simp [outcomeNames]

theorem logOpenNames_append (es ds : List Event) :
    logOpenNames (es ++ ds) = logOpenNames es ++ logOpenNames ds := by
  simp [logOpenNames]

theorem launchedNames_append (es ds : List Event) :
    launchedNames (es ++ ds) = launchedNames es ++ launchedNames ds := by
  simp [launchedNames]

theorem countAllDone_append (es ds : List Event) :
    countAllDone (es ++ ds) = countAllDone es + countAllDone ds := by
  simp [countAllDone]

theorem startNames_outcomeEvents (cfg : Config) (now : Nat) :
    ∀ (l : List RunningJob) (c : Nat), startNames (outcomeEvents cfg now l c) = [] := by
  intro l
  induction l with
  | nil => intro c; rfl
  | cons r rs ih =>
      intro c
      simp [outcomeEvents, startNames, outcomeEvent, startName?] at ih ⊢
      exact ih (c + 1)

theorem outcomeNames_outcomeEvents (cfg : Config) (now : Nat) :
    ∀ (l : List RunningJob) (c : Nat),
      outcomeNames (outcomeEvents cfg now l c) = l.map RunningJob.job_name := by
  intro l
  induction l with
  | nil => intro c; rfl
  | cons r rs ih =>
      intro c
      simp [outcomeEvents, outcomeNames, outcomeEvent, outcomeName?] at ih ⊢
      exact ih (c + 1)

theorem logOpenNames_outcomeEvents (cfg : Config) (now : Nat) :
    ∀ (l : List RunningJob) (c : Nat), logOpenNames (outcomeEvents cfg now l c) = [] := by
  intro l
  induction l with
  | nil => intro c; rfl
  | cons r rs ih =>
      intro c
      simp [outcomeEvents, logOpenNames, outcomeEvent, logOpenName?] at ih ⊢
      exact ih (c + 1)

theorem launchedNames_outcomeEvents (cfg : Config) (now : Nat) :
    ∀ (l : List RunningJob) (c : Nat), launchedNames (outcomeEvents cfg now l c) = [] := by
  intro l
  induction l with
  | nil => intro c; rfl
  | cons r rs ih =>
      intro c
      simp [outcomeEvents, launchedNames, outcomeEvent, launchedName?] at ih ⊢
      exact ih (c + 1)

theorem countAllDone_outcomeEvents (cfg : Config) (now : Nat) :
    ∀ (l : List RunningJob) (c : Nat), countAllDone (outcomeEvents cfg now l c) = 0 := by
  intro l
  induction l with
  | nil => intro c; rfl
  | cons r rs ih =>
      intro c
      simp [outcomeEvents, countAllDone, outcomeEvent, isAllDoneEvent] at ih ⊢
      exact ih (c + 1)

theorem mem_outcomeEvents (cfg : Config) (now : Nat) :
    ∀ (l : List RunningJob) (c : Nat) (e : Event), e ∈ outcomeEvents cfg now l c →
      ∃ j b d cc t, e = Event.outcome j b d cc t := by
  intro l
  induction l with
  | nil => intro c e he; simp [outcomeEvents] at he
  | cons r rs ih =>
      intro c e he
      rw [outcomeEvents, List.mem_cons] at he
      rcases he with he | he
      · exact ⟨r.job_name, r.exitCode == 0, now - r.start_time, c + 1, cfg.total_jobs, he⟩
      · exact ih (c + 1) e he

theorem startNames_launchEvents (cfg : Config) :
    ∀ (js : List String) (b : Nat), startNames (launchEvents cfg b js) = js := by
  intro js
  induction js with
  | nil => intro b; rfl
  | cons j rest ih =>
      intro b
      simp [launchEvents, startNames, startName?] at ih ⊢
      exact ih (b + 1)

theorem outcomeNames_launchEvents (cfg : Config) :
    ∀ (js : List String) (b : Nat), outcomeNames (launchEvents cfg b js) = [] := by
  intro js
  induction js with
  | nil => intro b; rfl
  | cons j rest ih =>
      intro b
      simp [launchEvents, outcomeNames, outcomeName?] at ih ⊢
      exact ih (b + 1)

theorem logOpenNames_launchEvents (cfg : Config) :
    ∀ (js : List String) (b : Nat), logOpenNames (launchEvents cfg b js) = js := by
  intro js
  induction js with
  | nil => intro b; rfl
  | cons j rest ih =>
      intro b
      simp [launchEvents, logOpenNames, logOpenName?] at ih ⊢
      exact ih (b + 1)

theorem launchedNames_launchEvents (cfg : Config) :
    ∀ (js : List String) (b : Nat), launchedNames (launchEvents cfg b js) = js := by
  intro js
  induction js with
  | nil => intro b; rfl
  | cons j rest ih =>
      intro b
      simp [launchEvents, launchedNames, launchedName?] at ih ⊢
      exact ih (b + 1)

theorem countAllDone_launchEvents (cfg : Config) :
    ∀ (js : List String) (b : Nat), countAllDone (launchEvents cfg b js) = 0 := by
  intro js
  induction js with
  | nil => intro b; rfl
  | cons j rest ih =>
      intro b
      simp [launchEvents, countAllDone, isAllDoneEvent] at ih ⊢
      exact ih (b + 1)

theorem mem_launchEvents (cfg : Config) :
    ∀ (js : List String) (b : Nat) (e : Event), e ∈ launchEvents cfg b js →
      (∃ j n, e = Event.starting j n) ∨
      (∃ j, e = Event.logOpen j (log_path_for cfg j) FileMode.write) ∨
      (∃ j, e = Event.launched j cfg.sim_dir (log_path_for cfg j) (log_path_for cfg j)) := by
  intro js
  induction js with
  | nil => intro b e he; simp [launchEvents] at he
  | cons j rest ih =>
      intro b e he
      rw [launchEvents, List.mem_cons, List.mem_cons, List.mem_cons] at he
      rcases he with he | he | he | he
      · exact Or.inl ⟨j, b + 1, he⟩
      · exact Or.inr (Or.inl ⟨j, he⟩)
      · exact Or.inr (Or.inr ⟨j, he⟩)
      · exact ih (b + 1) e he

theorem map_name_newJob (cfg : Config) (t : Nat) :
    ∀ (js : List String), (js.map (newJob cfg t)).map RunningJob.job_name = js := by
  intro js
  induction js with
  | nil => rfl
  | cons j rest ih => simp [newJob] at ih ⊢; exact ih

/-! ### The scheduler invariant -/

/-- Invariant of the admission loop, relative to the discovered job list
`jobs`: the started jobs followed by the still-queued jobs are exactly
`jobs` in order; per name, starts are split between retirements and the
running set; the completed counter counts the outcome lines; no all-done
line is printed inside the loop; one log creation and one process creation
per start, in the same order; and every log or process creation uses the
deterministic log path, truncate mode, and the shared work directory. -/
def Inv (cfg : Config) (jobs : List String) (st : SchedState) : Prop :=
  startNames st.events ++ st.queue = jobs ∧
  (∀ j, (startNames st.events).count j =
      (outcomeNames st.events).count j + (st.active.map RunningJob.job_name).count j) ∧
  st.completed_jobs = (outcomeNames st.events).length ∧
  countAllDone st.events = 0 ∧
  launchedNames st.events = startNames st.events ∧
  logOpenNames st.events = startNames st.events ∧
  (∀ e ∈ st.events,
    (∀ j p m, e = Event.logOpen j p m → p = log_path_for cfg j ∧ m = FileMode.write) ∧
    (∀ j c o er, e = Event.launched j c o er →
      c = cfg.sim_dir ∧ o = log_path_for cfg j ∧ er = log_path_for cfg j))

theorem Inv_init (cfg : Config) (jobs : List String) : Inv cfg jobs (initState jobs) := by
  refine ⟨?_, ?_, ?_, ?_, ?_, ?_, ?_⟩ <;>
    simp [initState, startNames, outcomeNames, logOpenNames, launchedNames, countAllDone]

theorem Inv_retire (cfg : Config) (jobs : List String) (st : SchedState)
    (h : Inv cfg jobs st) : Inv cfg jobs (retirePhase cfg st) := by
  obtain ⟨h1, h2, h3, h4, h5, h6, h7⟩ := h
  rw [retirePhase_eq]
  have hperm :
      ((st.active.filter pollDone).map RunningJob.job_name ++
        (st.active.filter (fun r => !(pollDone r))).map RunningJob.job_name).Perm
        (st.active.map RunningJob.job_name) := by
    rw [← List.map_append]
    exact (List.filter_append_perm pollDone st.active).map RunningJob.job_name
  refine ⟨?_, ?_, ?_, ?_, ?_, ?_, ?_⟩
  · simpa [startNames_append, startNames_outcomeEvents] using h1
  · intro j
    have hcount := hperm.count_eq j
    rw [List.count_append] at hcount
    have h2j := h2 j
    simp only [startNames_append, startNames_outcomeEvents, outcomeNames_append,
      outcomeNames_outcomeEvents, List.append_nil, List.count_append]
    omega
  · simp only [outcomeNames_append, outcomeNames_outcomeEvents, List.length_append,
      List.length_map]
    omega
  · simp [countAllDone_append, countAllDone_outcomeEvents, h4]
  · simp [launchedNames_append, launchedNames_outcomeEvents, startNames_append,
      startNames_outcomeEvents, h5]
  · simp [logOpenNames_append, logOpenNames_outcomeEvents, startNames_append,
      startNames_outcomeEvents, h6]
  · intro e he
    rw [List.mem_append] at he
    rcases he with he | he
    · exact h7 e he
    · obtain ⟨j, b, d, cc, t, rfl⟩ := mem_outcomeEvents cfg st.time _ _ e he
      exact ⟨fun j p m hcontra => (by cases hcontra),
             fun j c o er hcontra => (by cases hcontra)⟩

theorem Inv_fill (cfg : Config) (jobs : List String) (st : SchedState)
    (h : Inv cfg jobs st) : Inv cfg jobs (fillPhase cfg st) := by
  obtain ⟨h1, h2, h3, h4, h5, h6, h7⟩ := h
  obtain ⟨k, hk, heq, hcap, hstop⟩ := fillPhase_spec cfg st
  rw [heq]
  refine ⟨?_, ?_, ?_, ?_, ?_, ?_, ?_⟩
  · simp only [startNames_append, startNames_launchEvents, List.append_assoc,
      List.take_append_drop]
    exact h1
  · intro j
    have h2j := h2 j
    simp only [startNames_append, startNames_launchEvents, outcomeNames_append,
      outcomeNames_launchEvents, List.append_nil, List.count_append, List.map_append,
      map_name_newJob]
    omega
  · simp only [outcomeNames_append, outcomeNames_launchEvents, List.append_nil]
    exact h3
  · simp [countAllDone_append, countAllDone_launchEvents, h4]
  · simp [launchedNames_append, launchedNames_launchEvents, startNames_append,
      startNames_launchEvents, h5]
  · simp [logOpenNames_append, logOpenNames_launchEvents, startNames_append,
      startNames_launchEvents, h6]
  · intro e he
    rw [List.mem_append] at he
    rcases he with he | he
    · exact h7 e he
    · rcases mem_launchEvents cfg _ _ e he with ⟨j, n, rfl⟩ | ⟨j, rfl⟩ | ⟨j, rfl⟩
      · exact ⟨fun j p m hcontra => (by cases hcontra),
               fun j c o er hcontra => (by cases hcontra)⟩
      · refine ⟨fun j2 p m hyp => ?_, fun j2 c o er hcontra => (by cases hcontra)⟩
        cases hyp
        exact ⟨rfl, rfl⟩
      · refine ⟨fun j2 p m hcontra => (by cases hcontra), fun j2 c o er hyp => ?_⟩
        cases hyp
        exact ⟨rfl, rfl, rfl⟩

theorem Inv_sleep (cfg : Config) (jobs : List String) (st : SchedState)
    (h : Inv cfg jobs st) : Inv cfg jobs (sleepPhase st) := by
  obtain ⟨h1, h2, h3, h4, h5, h6, h7⟩ := h
  have hnames : ((st.active.map fun r => { r with remaining := r.remaining - 1 }).map
      RunningJob.job_name) = st.active.map RunningJob.job_name := by
    rw [List.map_map]
    rfl
  refine ⟨?_, ?_, ?_, ?_, ?_, ?_, ?_⟩
  · simpa [sleepPhase, startNames_append, startNames] using h1
  · intro j
    have h2j := h2 j
    simp only [sleepPhase, startNames_append, outcomeNames_append, hnames]
    simpa [startNames, outcomeNames] using h2j
  · simpa [sleepPhase, outcomeNames_append, outcomeNames] using h3
  · simpa [sleepPhase, countAllDone_append, countAllDone, isAllDoneEvent] using h4
  · simp only [sleepPhase, launchedNames_append, startNames_append]
    simpa [launchedNames, startNames, launchedName?, startName?] using h5
  · simp only [sleepPhase, logOpenNames_append, startNames_append]
    simpa [logOpenNames, startNames, logOpenName?, startName?] using h6
  · intro e he
    simp only [sleepPhase, List.mem_append, List.mem_singleton] at he
    rcases he with he | rfl
    · exact h7 e he
    · exact ⟨fun j p m hcontra => (by cases hcontra),
             fun j c o er hcontra => (by cases hcontra)⟩

theorem Inv_step (cfg : Config) (jobs : List String) (st : SchedState)
    (h : Inv cfg jobs st) : Inv cfg jobs (step cfg st) :=
  Inv_sleep cfg jobs _ (Inv_fill cfg jobs _ (Inv_retire cfg jobs st h))

/-! ### Loop lemmas -/

theorem stepN_invariant (cfg : Config) (P : SchedState → Prop)
    (hP : ∀ s, P s → P (step cfg s)) :
    ∀ (n : Nat) (st : SchedState), P st → P (stepN cfg n st) := by
  intro n
  induction n with
  | zero => intro st h; exact h
  | succ n ih => intro st h; exact ih (step cfg st) (hP st h)

theorem runLoop_eq_stepN (cfg : Config) :
    ∀ (fuel : Nat) (st final : SchedState), runLoop cfg fuel st = some final →
      loopDone final = true ∧
      ∃ n, n ≤ fuel ∧ final = stepN cfg n st ∧
        ∀ m, m < n → loopDone (stepN cfg m st) = false := by
  intro fuel
  induction fuel with
  | zero =>
      intro st final hrun
      rw [runLoop] at hrun
      by_cases h : loopDone st = true
      · rw [if_pos h] at hrun
        cases hrun
        exact ⟨h, 0, Nat.le_refl 0, rfl, fun m hm => absurd hm (Nat.not_lt_zero m)⟩
      · rw [if_neg h] at hrun
        cases hrun
  | succ fuel ih =>
      intro st final hrun
      rw [runLoop] at hrun
      by_cases h : loopDone st = true
      · rw [if_pos h] at hrun
        cases hrun
        exact ⟨h, 0, Nat.zero_le _, rfl, fun m hm => absurd hm (Nat.not_lt_zero m)⟩
      · rw [if_neg h] at hrun
        obtain ⟨hdone, n, hn, heq, hmin⟩ := ih (step cfg st) final hrun
        refine ⟨hdone, n + 1, Nat.succ_le_succ hn, heq, ?_⟩
        intro m hm
        cases m with
        | zero => exact Bool.not_eq_true _ ▸ (by simpa using h)
        | succ m => exact hmin m (Nat.lt_of_succ_lt_succ hm)

theorem runLoop_invariant (cfg : Config) (P : SchedState → Prop)
    (hP : ∀ s, P s → P (step cfg s)) (fuel : Nat) (st final : SchedState)
    (hrun : runLoop cfg fuel st = some final) (hst : P st) : P final := by
  obtain ⟨_, n, _, heq, _⟩ := runLoop_eq_stepN cfg fuel st final hrun
  rw [heq]
  exact stepN_invariant cfg P hP n st hst

theorem loopDone_iff (st : SchedState) :
    loopDone st = true ↔ st.queue = [] ∧ st.active = [] := by
  simp [loopDone, List.isEmpty_iff]

/-! ### Capacity -/

theorem capacity_step (cfg : Config) (st : SchedState)
    (h : (st.active.length : Int) ≤ cfg.num_parallel) :
    ((step cfg st).active.length : Int) ≤ cfg.num_parallel := by
  have hret : ((retirePhase cfg st).active.length : Int) ≤ cfg.num_parallel := by
    rw [retirePhase_eq]
    have hle := List.length_filter_le (fun r => !(pollDone r)) st.active
    have : ((st.active.filter (fun r => !(pollDone r))).length : Int) ≤
        (st.active.length : Int) := by exact_mod_cast hle
    exact le_trans this h
  obtain ⟨k, hk, heq, hcap, hstop⟩ := fillPhase_spec cfg (retirePhase cfg st)
  have hfill : ((fillPhase cfg (retirePhase cfg st)).active.length : Int) ≤
      cfg.num_parallel := by
    rw [heq]
    simp only [List.length_append, List.length_map, List.length_take,
      Nat.min_eq_left hk]
    rcases Nat.eq_zero_or_pos k with h0 | h1
    · subst h0
      simpa using hret
    · have h2 := hcap h1
      push_cast at h2 ⊢
      omega
  show ((sleepPhase (fillPhase cfg (retirePhase cfg st))).active.length : Int) ≤ _
  simpa [sleepPhase] using hfill

/-! ### Termination measure -/

/-- Ranking function for the admission loop: every queued job will cost its
polling rounds plus one admission and one retirement; every running job its
remaining polling rounds plus one retirement. -/
def fuelOf (cfg : Config) (st : SchedState) : Nat :=
  (st.queue.map (fun j => cfg.beh.dur j + 2)).sum +
  (st.active.map (fun r => r.remaining + 1)).sum

theorem sum_map_filter_poll (l : List RunningJob) (g : RunningJob → Nat) :
    ((l.filter pollDone).map g).sum + ((l.filter (fun r => !(pollDone r))).map g).sum =
      (l.map g).sum := by
  have hperm := (List.filter_append_perm pollDone l).map g
  have := hperm.sum_eq
  rw [List.map_append, List.sum_append] at this
  exact this

theorem sum_ones_of_done (l : List RunningJob) (h : ∀ r ∈ l, pollDone r = true) :
    (l.map (fun r => r.remaining + 1)).sum = l.length := by
  induction l with
  | nil => rfl
  | cons r rs ih =>
      have hr : r.remaining = 0 := by
        have := h r (List.mem_cons_self r rs)
        simpa [pollDone] using this
      simp only [List.map_cons, List.sum_cons, List.length_cons, hr]
      rw [ih (fun x hx => h x (List.mem_cons_of_mem r hx))]
      omega

theorem sum_map_add_two (g : String → Nat) :
    ∀ (js : List String),
      (js.map (fun j => g j + 2)).sum = (js.map (fun j => g j + 1)).sum + js.length := by
  intro js
  induction js with
  | nil => rfl
  | cons j rest ih =>
      simp only [List.map_cons, List.sum_cons, List.length_cons, ih]
      omega

theorem sum_dec_le (l : List RunningJob) :
    ((l.map fun r => { r with remaining := r.remaining - 1 }).map
        (fun r => r.remaining + 1)).sum ≤
      (l.map (fun r => r.remaining + 1)).sum := by
  induction l with
  | nil => exact Nat.le_refl 0
  | cons r rs ih =>
      simp only [List.map_cons, List.sum_cons]
      omega

theorem sum_dec_lt (l : List RunningJob) (hne : l ≠ [])
    (h : ∀ r ∈ l, r.remaining ≠ 0) :
    ((l.map fun r => { r with remaining := r.remaining - 1 }).map
        (fun r => r.remaining + 1)).sum <
      (l.map (fun r => r.remaining + 1)).sum := by
  cases l with
  | nil => exact absurd rfl hne
  | cons r rs =>
      have hr : r.remaining ≠ 0 := h r (List.mem_cons_self r rs)
      have hle := sum_dec_le rs
      simp only [List.map_cons, List.sum_cons]
      omega

theorem fuelOf_retire (cfg : Config) (st : SchedState) :
    fuelOf cfg (retirePhase cfg st) + (st.active.filter pollDone).length =
      fuelOf cfg st := by
  rw [retirePhase_eq]
  unfold fuelOf
  simp only
  have hsplit := sum_map_filter_poll st.active (fun r => r.remaining + 1)
  have hfin := sum_ones_of_done (st.active.filter pollDone)
    (fun r hr => (List.mem_filter.mp hr).2)
  omega

theorem fuelOf_sleep_le (cfg : Config) (st : SchedState) :
    fuelOf cfg (sleepPhase st) ≤ fuelOf cfg st := by
  unfold fuelOf
  simp only [sleepPhase]
  have := sum_dec_le st.active
  omega

theorem fuel_decreases (cfg : Config) (hP : 1 ≤ cfg.num_parallel) (st : SchedState)
    (h : loopDone st = false) : fuelOf cfg (step cfg st) < fuelOf cfg st := by
  have hret := fuelOf_retire cfg st
  obtain ⟨k, hk, heq, hcap, hstop⟩ := fillPhase_spec cfg (retirePhase cfg st)
  have hmapnew : ∀ (js : List String) (t : Nat),
      ((js.map (newJob cfg t)).map (fun r => r.remaining + 1)) =
        js.map (fun j => cfg.beh.dur j + 1) := by
    intro js t
    rw [List.map_map]
    rfl
  have hqueue1 : (retirePhase cfg st).queue = st.queue := by rw [retirePhase_eq]
  have hfill : fuelOf cfg (fillPhase cfg (retirePhase cfg st)) + k =
      fuelOf cfg (retirePhase cfg st) := by
    rw [heq]
    unfold fuelOf
    simp only [List.map_append, List.sum_append, hmapnew]
    conv_rhs =>
      rw [← List.take_append_drop k (retirePhase cfg st).queue, List.map_append,
        List.sum_append]
    have := sum_map_add_two cfg.beh.dur ((retirePhase cfg st).queue.take k)
    have hlen : ((retirePhase cfg st).queue.take k).length = k := by
      rw [List.length_take]
      rw [retirePhase_eq] at hk ⊢
      exact Nat.min_eq_left hk
    omega
  have hsleep := fuelOf_sleep_le cfg (fillPhase cfg (retirePhase cfg st))
  have hstep : step cfg st = sleepPhase (fillPhase cfg (retirePhase cfg st)) := rfl
  rcases Nat.eq_zero_or_pos ((st.active.filter pollDone).length + k) with hz | hpos
  · -- nothing retired, nothing admitted: the sleep makes strict progress
    have hfin0 : (st.active.filter pollDone).length = 0 := by omega
    have hk0 : k = 0 := by omega
    subst hk0
    have hfilnil : st.active.filter pollDone = [] := List.length_eq_zero.mp hfin0
    have hallrun : ∀ r ∈ st.active, pollDone r = false := by
      intro r hr
      by_contra hcon
      have htrue : pollDone r = true := by
        revert hcon; cases pollDone r <;> simp
      have : r ∈ st.active.filter pollDone := List.mem_filter.mpr ⟨hr, htrue⟩
      rw [hfilnil] at this
      simp at this
    have hactive1 : (retirePhase cfg st).active = st.active := by
      rw [retirePhase_eq]
      simp only
      exact List.filter_eq_self.mpr (fun r hr => by simp [hallrun r hr])
    have hactive2 : (fillPhase cfg (retirePhase cfg st)).active =
        (retirePhase cfg st).active := by
      rw [heq]
      simp
    have hne2 : (fillPhase cfg (retirePhase cfg st)).active ≠ [] := by
      rw [hactive2, hactive1]
      by_cases hq : st.queue = []
      · intro hcon
        have hTrue : loopDone st = true := by simp [loopDone, hq, hcon]
        rw [hTrue] at h
        simp at h
      · have hq1 : (retirePhase cfg st).queue.drop 0 ≠ [] := by
          simpa [hqueue1] using hq
        have hstop0 := hstop hq1
        have : (1 : Int) ≤ ((retirePhase cfg st).active.length : Int) := by
          push_cast at hstop0
          omega
        rw [hactive1] at this
        intro hcon
        rw [hcon] at this
        simp at this
    have hrem : ∀ r ∈ (fillPhase cfg (retirePhase cfg st)).active, r.remaining ≠ 0 := by
      rw [hactive2, hactive1]
      intro r hr
      have := hallrun r hr
      simpa [pollDone] using this
    have hstrict : fuelOf cfg (step cfg st) <
        fuelOf cfg (fillPhase cfg (retirePhase cfg st)) := by
      rw [hstep]
      unfold fuelOf
      simp only [sleepPhase]
      have := sum_dec_lt (fillPhase cfg (retirePhase cfg st)).active hne2 hrem
      omega
    omega
  · -- at least one retirement or one admission
    rw [hstep]
    omega

theorem fuelOf_zero_done (cfg : Config) (st : SchedState)
    (h : fuelOf cfg st = 0) : loopDone st = true := by
  unfold fuelOf at h
  have hq : st.queue = [] := by
    cases hq2 : st.queue with
    | nil => rfl
    | cons j rest =>
        rw [hq2] at h
        simp only [List.map_cons, List.sum_cons] at h
        omega
  have ha : st.active = [] := by
    cases ha2 : st.active with
    | nil => rfl
    | cons r rest =>
        rw [ha2] at h
        simp only [List.map_cons, List.sum_cons] at h
        omega
  exact (loopDone_iff st).mpr ⟨hq, ha⟩

theorem runLoop_terminates (cfg : Config) (hP : 1 ≤ cfg.num_parallel) :
    ∀ (n : Nat) (st : SchedState), fuelOf cfg st ≤ n →
      ∃ final, runLoop cfg n st = some final := by
  intro n
  induction n with
  | zero =>
      intro st hf
      have hdone := fuelOf_zero_done cfg st (Nat.le_zero.mp hf)
      exact ⟨st, by rw [runLoop, if_pos hdone]⟩
  | succ n ih =>
      intro st hf
      by_cases hd : loopDone st = true
      · exact ⟨st, by rw [runLoop, if_pos hd]⟩
      · have hd2 : loopDone st = false := by
          revert hd; cases loopDone st <;> simp
        have hlt := fuel_decreases cfg hP st hd2
        obtain ⟨final, hfin⟩ := ih (step cfg st) (by omega)
        exact ⟨final, by rw [runLoop, if_neg hd]; exact hfin⟩

/-! ### The string order is total and transitive -/

theorem charListLe_total : ∀ (as bs : List Char),
    charListLe as bs = true ∨ charListLe bs as = true := by
  intro as
  induction as with
  | nil => intro bs; left; rfl
  | cons a as1 ih =>
      intro bs
      cases bs with
      | nil => right; rfl
      | cons b bs1 =>
          by_cases hab : a = b
          · subst hab
            simpa [charListLe] using ih bs1
          · rcases lt_or_gt_of_ne hab with hlt | hgt
            · left
              simp [charListLe, hab, hlt]
            · right
              have hba : ¬ b = a := fun hcon => hab hcon.symm
              simp [charListLe, hba, hgt]

theorem charListLe_trans : ∀ (as bs cs : List Char),
    charListLe as bs = true → charListLe bs cs = true → charListLe as cs = true := by
  intro as
  induction as with
  | nil => intro bs cs h1 h2; rfl
  | cons a as1 ih =>
      intro bs cs h1 h2
      cases bs with
      | nil => simp [charListLe] at h1
      | cons b bs1 =>
          cases cs with
          | nil => simp [charListLe] at h2
          | cons c cs1 =>
              by_cases hab : a = b
              · subst hab
                by_cases hac : a = c
                · subst hac
                  simp only [charListLe, if_pos rfl] at h1 h2 ⊢
                  exact ih bs1 cs1 h1 h2
                · simp only [charListLe, if_pos rfl] at h1
                  simp only [charListLe, if_neg hac] at h2 ⊢
                  exact h2
              · simp only [charListLe, if_neg hab] at h1
                have haltb : a < b := by simpa using h1
                by_cases hbc : b = c
                · subst hbc
                  have hac : ¬ a = b := hab
                  simp only [charListLe, if_neg hac]
                  simpa using haltb
                · simp only [charListLe, if_neg hbc] at h2
                  have hbltc : b < c := by simpa using h2
                  have haltc : a < c := lt_trans haltb hbltc
                  have hac : ¬ a = c := ne_of_lt haltc
                  simp only [charListLe, if_neg hac]
                  simpa using haltc

instance : IsTotal String strLeProp :=
  ⟨fun a b => charListLe_total a.toList b.toList⟩

instance : IsTrans String strLeProp :=
  ⟨fun a b c => charListLe_trans a.toList b.toList c.toList⟩

/-! ### The exception path of a failed launch

The source has no handler around `open(log_file_path, 'w')` (line 102) or
`subprocess.Popen` (line 106); the only `try` in `run_jobs_in_parallel`
guards `os.listdir` (lines 41-47).  The following variant of the loop makes
that exception path explicit: `openFails j` says that creating the log
artifact or the process for job `j` raises.  The raise happens after the
starting line is printed and after the job was popped from the queue; the
error value records the job and the state at that moment, and the loop
aborts. -/

/-- Which jobs fail at launch (log creation or process creation raises). -/
structure FailSpec where
  openFails : String → Bool

/-- The inner `while` of lines 90-113 with the exception path explicit. -/
def fillAuxE (cfg : Config) (fs : FailSpec) :
    List String → SchedState → Except (String × SchedState) SchedState
  | [], st => Except.ok { st with queue := [] }
  | j :: rest, st =>
      if (st.active.length : Int) < cfg.num_parallel then
        if fs.openFails j then
          Except.error (j,
            { st with
                queue := rest,
                events := st.events ++ [Event.starting j (st.active.length + 1)] })
        else fillAuxE cfg fs rest (launch cfg st j)
      else Except.ok { st with queue := j :: rest }

/-- One iteration of the loop with the exception path explicit: a raise in
the admission phase skips the sleep and propagates. -/
def stepE (cfg : Config) (fs : FailSpec) (st : SchedState) :
    Except (String × SchedState) SchedState :=
  (fillAuxE cfg fs (retirePhase cfg st).queue (retirePhase cfg st)).map sleepPhase

/-- The admission loop with the exception path explicit: an uncaught raise
ends the loop (and the whole call) immediately. -/
def runLoopE (cfg : Config) (fs : FailSpec) :
    Nat → SchedState → Option (Except (String × SchedState) SchedState)
  | 0, st => if loopDone st then some (Except.ok st) else none
  | fuel + 1, st =>
      if loopDone st then some (Except.ok st)
      else
        match stepE cfg fs st with
        | Except.error err => some (Except.error err)
        | Except.ok st2 => runLoopE cfg fs fuel st2

instance {e a : Type} [DecidableEq e] [DecidableEq a] : DecidableEq (Except e a)
  | Except.error x, Except.error y =>
      if h : x = y then Decidable.isTrue (h ▸ rfl)
      else Decidable.isFalse (fun hc => h (by cases hc; rfl))
  | Except.error x, Except.ok y => Decidable.isFalse (fun hc => Except.noConfusion hc)
  | Except.ok x, Except.error y => Decidable.isFalse (fun hc => Except.noConfusion hc)
  | Except.ok x, Except.ok y =>
      if h : x = y then Decidable.isTrue (h ▸ rfl)
      else Decidable.isFalse (fun hc => h (by cases hc; rfl))

theorem fillAuxE_ok (cfg : Config) (fs : FailSpec) :
    ∀ (q : List String) (st st2 : SchedState),
      fillAuxE cfg fs q st = Except.ok st2 → st2 = fillAux cfg q st := by
  intro q
  induction q with
  | nil =>
      intro st st2 h
      rw [fillAuxE] at h
      cases h
      rfl
  | cons j rest ih =>
      intro st st2 h
      rw [fillAuxE] at h
      rw [fillAux]
      by_cases hcap : (st.active.length : Int) < cfg.num_parallel
      · rw [if_pos hcap] at h
        rw [if_pos hcap]
        by_cases hf : fs.openFails j = true
        · rw [if_pos hf] at h
          cases h
        · rw [if_neg hf] at h
          exact ih (launch cfg st j) st2 h
      · rw [if_neg hcap] at h
        rw [if_neg hcap]
        cases h
        rfl

theorem fillAuxE_error (cfg : Config) (fs : FailSpec) :
    ∀ (q : List String) (st : SchedState) (j : String) (stE : SchedState),
      fillAuxE cfg fs q st = Except.error (j, stE) →
      fs.openFails j = true ∧
      ∃ k, q.drop k = j :: stE.queue ∧
        stE.events = st.events ++ launchEvents cfg st.active.length (q.take k) ++
          [Event.starting j (st.active.length + k + 1)] ∧
        stE.active = st.active ++ (q.take k).map (newJob cfg st.time) := by
  intro q
  induction q with
  | nil =>
      intro st j stE h
      rw [fillAuxE] at h
      cases h
  | cons j0 rest ih =>
      intro st j stE h
      rw [fillAuxE] at h
      by_cases hcap : (st.active.length : Int) < cfg.num_parallel
      · rw [if_pos hcap] at h
        by_cases hf : fs.openFails j0 = true
        · rw [if_pos hf] at h
          cases h
          refine ⟨hf, 0, by simp, ?_, by simp⟩
          simp [launchEvents]
        · rw [if_neg hf] at h
          obtain ⟨hfj, k, hdrop, hevents, hactive⟩ := ih (launch cfg st j0) j stE h
          have hlen : (launch cfg st j0).active.length = st.active.length + 1 := by
            simp [launch]
          refine ⟨hfj, k + 1, ?_, ?_, ?_⟩
          · simpa [List.drop_succ_cons] using hdrop
          · rw [hevents, hlen]
            simp only [List.take_succ_cons, launchEvents, launch]
            simp [List.append_assoc]
            omega
          · rw [hactive]
            simp only [List.take_succ_cons, launch]
            simp [List.append_assoc]
      · rw [if_neg hcap] at h
        cases h

theorem stepE_ok (cfg : Config) (fs : FailSpec) (st st2 : SchedState)
    (h : stepE cfg fs st = Except.ok st2) : st2 = step cfg st := by
  rw [stepE] at h
  cases hfill : fillAuxE cfg fs (retirePhase cfg st).queue (retirePhase cfg st) with
  | error e => rw [hfill] at h; cases h
  | ok stM =>
      rw [hfill] at h
      cases h
      have := fillAuxE_ok cfg fs _ _ _ hfill
      rw [this]
      rfl

theorem stepE_error (cfg : Config) (fs : FailSpec) (st : SchedState) (j : String)
    (stE : SchedState) (h : stepE cfg fs st = Except.error (j, stE)) :
    fillAuxE cfg fs (retirePhase cfg st).queue (retirePhase cfg st) =
      Except.error (j, stE) := by
  rw [stepE] at h
  cases hfill : fillAuxE cfg fs (retirePhase cfg st).queue (retirePhase cfg st) with
  | error e => rw [hfill] at h; cases h; exact congrArg Except.error rfl
  | ok stM => rw [hfill] at h; cases h

theorem runLoopE_error (cfg : Config) (fs : FailSpec) :
    ∀ (fuel : Nat) (st : SchedState) (j : String) (stE : SchedState),
      runLoopE cfg fs fuel st = some (Except.error (j, stE)) →
      ∃ m, loopDone (stepN cfg m st) = false ∧
        stepE cfg fs (stepN cfg m st) = Except.error (j, stE) := by
  intro fuel
  induction fuel with
  | zero =>
      intro st j stE h
      rw [runLoopE] at h
      by_cases hd : loopDone st = true
      · rw [if_pos hd] at h; cases h
      · rw [if_neg hd] at h; cases h
  | succ fuel ih =>
      intro st j stE h
      rw [runLoopE] at h
      by_cases hd : loopDone st = true
      · rw [if_pos hd] at h; cases h
      · rw [if_neg hd] at h
        have hd2 : loopDone st = false := by
          revert hd; cases loopDone st <;> simp
        cases hstepE : stepE cfg fs st with
        | error err =>
            rw [hstepE] at h
            cases h
            exact ⟨0, hd2, hstepE⟩
        | ok st2 =>
            rw [hstepE] at h
            obtain ⟨m, hm1, hm2⟩ := ih st2 j stE h
            have hst2 : st2 = step cfg st := stepE_ok cfg fs st st2 hstepE
            subst hst2
            exact ⟨m + 1, hm1, hm2⟩

/-! ### Concrete fixtures -/

/-- Processes that finish within the first polling round, exit code 0. -/
def behZero : Behavior := { dur := fun _ => 0, exitCode := fun _ => 0 }

/-- Processes that need two extra polling rounds and exit with code 1. -/
def behSlowFail : Behavior := { dur := fun _ => 2, exitCode := fun _ => 1 }

/-- Ceiling 1, one job expected. -/
def cfgOne : Config :=
  { sim_dir := ("simulations"), num_parallel := 1, beh := behZero, total_jobs := 1 }

/-- Ceiling 2, two jobs expected. -/
def cfgTwo : Config :=
  { sim_dir := ("simulations"), num_parallel := 2, beh := behZero, total_jobs := 2 }

/-- Ceiling 0: no capacity at all. -/
def cfgZero : Config :=
  { sim_dir := ("simulations"), num_parallel := 0, beh := behZero, total_jobs := 1 }

/-- Final loop state of `runLoop cfgTwo 2 (initState ["a", "b"])`. -/
def finalTwo : SchedState :=
  { queue := [], active := [], completed_jobs := 2, time := 30,
    events :=
      [Event.starting ("a") 1,
       Event.logOpen ("a") ("simulations/a.log") FileMode.write,
       Event.launched ("a") ("simulations") ("simulations/a.log") ("simulations/a.log"),
       Event.starting ("b") 2,
       Event.logOpen ("b") ("simulations/b.log") FileMode.write,
       Event.launched ("b") ("simulations") ("simulations/b.log") ("simulations/b.log"),
       Event.slept 15,
       Event.outcome ("a") true 15 1 2,
       Event.outcome ("b") true 15 2 2,
       Event.slept 15] }

/-! ### Claims -/

/-- C1: Capacity invariant: for every reachable state of the admission loop
(observed between iterations, for a nonnegative configured ceiling), the
number of entries of `active_processes` is at most `num_parallel`. -/
theorem capacity_invariant (cfg : Config) (jobs : List String)
    (hP : 0 ≤ cfg.num_parallel) (n : Nat) :
    ((stepN cfg n (initState jobs)).active.length : Int) ≤ cfg.num_parallel := by
  refine stepN_invariant cfg (fun s => (s.active.length : Int) ≤ cfg.num_parallel)
    (fun s hs => capacity_step cfg s hs) n (initState jobs) ?_
  simpa [initState] using hP

/-- Witness for C1 at ceiling 2, three jobs, three iterations. -/
theorem capacity_invariant_witness :
    (0 : Int) ≤ cfgTwo.num_parallel ∧
    ((stepN cfgTwo 3 (initState (["a", "b", "c"]))).active.length : Int) ≤
      cfgTwo.num_parallel :=
  ⟨by decide, capacity_invariant cfgTwo (["a", "b", "c"]) (by decide) 3⟩

/-- C2: Completeness: in every run of the admission loop that reaches its
end, each discovered job identifier is started exactly as often as it was
discovered, retired (reported as success or failure) exactly as often, and
`completed_jobs` ends at the total number of jobs: nothing is lost and
nothing is processed twice. -/
theorem scheduler_completeness (cfg : Config) (jobs : List String) (fuel : Nat)
    (final : SchedState)
    (hrun : runLoop cfg fuel (initState jobs) = some final) :
    (∀ j, (startNames final.events).count j = jobs.count j) ∧
    (∀ j, (outcomeNames final.events).count j = jobs.count j) ∧
    final.completed_jobs = jobs.length := by
  have hInv : Inv cfg jobs final :=
    runLoop_invariant cfg (Inv cfg jobs) (fun s hs => Inv_step cfg jobs s hs)
      fuel _ final hrun (Inv_init cfg jobs)
  obtain ⟨hdone, -⟩ := runLoop_eq_stepN cfg fuel _ final hrun
  obtain ⟨hq, ha⟩ := (loopDone_iff final).mp hdone
  obtain ⟨h1, h2, h3, h4, h5, h6, h7⟩ := hInv
  have hstart : startNames final.events = jobs := by
    rw [hq] at h1
    simpa using h1
  have hcount : ∀ j, (outcomeNames final.events).count j = jobs.count j := by
    intro j
    have h2j := h2 j
    rw [ha] at h2j
    simp only [List.map_nil, List.count_nil] at h2j
    rw [hstart] at h2j
    omega
  refine ⟨fun j => by rw [hstart], hcount, ?_⟩
  have hperm : (outcomeNames final.events).Perm jobs := by
    refine List.perm_iff_count.mpr ?_
    intro j
    exact hcount j
  rw [h3, hperm.length_eq]

/-- Witness for C2: a full run of two jobs at ceiling 2. -/
theorem scheduler_completeness_witness :
    runLoop cfgTwo 2 (initState (["a", "b"])) = some finalTwo ∧
    ((∀ j, (startNames finalTwo.events).count j = (["a", "b"] : List String).count j) ∧
     (∀ j, (outcomeNames finalTwo.events).count j = (["a", "b"] : List String).count j) ∧
     finalTwo.completed_jobs = (["a", "b"] : List String).length) :=
  ⟨by decide, scheduler_completeness cfgTwo (["a", "b"]) 2 finalTwo (by decide)⟩

/-- C6: Deterministic discovery order and FIFO admission: discovery yields
the base names of the `.inp` files sorted lexicographically, and in every
completed run the jobs are started exactly in that discovered order (the
loop always pops the head of the queue). -/
theorem discovery_sorted_fifo (files : List String) (cfg : Config) (fuel : Nat)
    (final : SchedState)
    (hrun : runLoop cfg fuel (initState (discoverJobs files)) = some final) :
    List.Pairwise strLeProp (discoverJobs files) ∧
    (discoverJobs files).Perm
      ((files.filter (fun f => endsWithDotInp f)).map splitextRoot) ∧
    startNames final.events = discoverJobs files := by
  refine ⟨?_, ?_, ?_⟩
  · exact List.sorted_insertionSort strLeProp _
  · exact List.perm_insertionSort strLeProp _
  · have hInv : Inv cfg (discoverJobs files) final :=
      runLoop_invariant cfg (Inv cfg (discoverJobs files))
        (fun s hs => Inv_step cfg _ s hs) fuel _ final hrun (Inv_init cfg _)
    obtain ⟨hdone, -⟩ := runLoop_eq_stepN cfg fuel _ final hrun
    obtain ⟨hq, -⟩ := (loopDone_iff final).mp hdone
    obtain ⟨h1, -⟩ := hInv
    rw [hq] at h1
    simpa using h1

/-- Witness for C6: a listing with an unsorted pair of `.inp` files and one
non-matching file, run to completion at ceiling 2. -/
theorem discovery_sorted_fifo_witness :
    runLoop cfgTwo 2 (initState (discoverJobs (["b.inp", "a.inp", "c.txt"]))) =
      some finalTwo ∧
    (List.Pairwise strLeProp (discoverJobs (["b.inp", "a.inp", "c.txt"])) ∧
     (discoverJobs (["b.inp", "a.inp", "c.txt"])).Perm
       (((["b.inp", "a.inp", "c.txt"] : List String).filter
          (fun f => endsWithDotInp f)).map splitextRoot) ∧
     startNames finalTwo.events = discoverJobs (["b.inp", "a.inp", "c.txt"])) :=
  ⟨by decide,
   discovery_sorted_fifo (["b.inp", "a.inp", "c.txt"]) cfgTwo 2 finalTwo (by decide)⟩

/-- C8: Idempotent log naming: every log creation in any reachable trace
uses the path derived from the job identifier inside the work directory and
truncate (`w`) mode; every process creation redirects both stdout and
stderr to that same single log path; and the trace has exactly one log
creation per starting line, per job name. -/
theorem log_artifact_determinism (cfg : Config) (jobs : List String) (n : Nat)
    (e : Event) (he : e ∈ (stepN cfg n (initState jobs)).events) :
    (∀ j p m, e = Event.logOpen j p m → p = log_path_for cfg j ∧ m = FileMode.write) ∧
    (∀ j c o er, e = Event.launched j c o er →
      c = cfg.sim_dir ∧ o = log_path_for cfg j ∧ er = log_path_for cfg j) ∧
    (∀ j, (logOpenNames (stepN cfg n (initState jobs)).events).count j =
      (startNames (stepN cfg n (initState jobs)).events).count j) := by
  have hInv : Inv cfg jobs (stepN cfg n (initState jobs)) :=
    stepN_invariant cfg (Inv cfg jobs) (fun s hs => Inv_step cfg jobs s hs) n
      (initState jobs) (Inv_init cfg jobs)
  obtain ⟨-, -, -, -, -, h6, h7⟩ := hInv
  exact ⟨(h7 e he).1, (h7 e he).2, fun j => by rw [h6]⟩

/-- Witness for C8: the log creation of job `a` after one iteration. -/
theorem log_artifact_determinism_witness :
    Event.logOpen ("a") ("simulations/a.log") FileMode.write ∈
      (stepN cfgOne 1 (initState (["a"]))).events ∧
    ((∀ j p m, Event.logOpen ("a") ("simulations/a.log") FileMode.write =
        Event.logOpen j p m → p = log_path_for cfgOne j ∧ m = FileMode.write) ∧
     (∀ j c o er, Event.logOpen ("a") ("simulations/a.log") FileMode.write =
        Event.launched j c o er →
        c = cfgOne.sim_dir ∧ o = log_path_for cfgOne j ∧ er = log_path_for cfgOne j) ∧
     (∀ j, (logOpenNames (stepN cfgOne 1 (initState (["a"]))).events).count j =
       (startNames (stepN cfgOne 1 (initState (["a"]))).events).count j)) :=
  ⟨by decide,
   log_artifact_determinism cfgOne (["a"]) 1
     (Event.logOpen ("a") ("simulations/a.log") FileMode.write) (by decide)⟩

theorem step_stuck (cfg : Config) (hP : cfg.num_parallel ≤ 0) (st : SchedState)
    (ha : st.active = []) (hq : st.queue ≠ []) :
    (step cfg st).queue = st.queue ∧ (step cfg st).active = [] := by
  have hret_active : (retirePhase cfg st).active = [] := by
    rw [retirePhase_eq]
    simp [ha]
  have hret_queue : (retirePhase cfg st).queue = st.queue := by rw [retirePhase_eq]
  cases hq2 : (retirePhase cfg st).queue with
  | nil =>
      rw [hret_queue] at hq2
      exact absurd hq2 hq
  | cons j rest =>
      have hguard : ¬ (((retirePhase cfg st).active.length : Int) < cfg.num_parallel) := by
        rw [hret_active]
        simp only [List.length_nil]
        omega
      have hfill : fillPhase cfg (retirePhase cfg st) =
          { retirePhase cfg st with queue := j :: rest } := by
        rw [fillPhase, hq2, fillAux, if_neg hguard]
      constructor
      · show (sleepPhase (fillPhase cfg (retirePhase cfg st))).queue = st.queue
        rw [hfill]
        rw [← hq2, hret_queue]
        rfl
      · show (sleepPhase (fillPhase cfg (retirePhase cfg st))).active = []
        rw [hfill]
        simp [sleepPhase, hret_active]

/-- C9: with `num_parallel ≤ 0` and at least one discovered job, the
capacity guard of line 90 never holds, no job is ever admitted, the queue
never empties, and the loop never terminates: termination needs the
unstated precondition `num_parallel ≥ 1`. -/
theorem no_capacity_no_termination (cfg : Config) (jobs : List String)
    (hP : cfg.num_parallel ≤ 0) (hjobs : jobs ≠ []) :
    ∀ fuel, runLoop cfg fuel (initState jobs) = none := by
  have key : ∀ (fuel : Nat) (st : SchedState), st.queue = jobs → st.active = [] →
      runLoop cfg fuel st = none := by
    intro fuel
    induction fuel with
    | zero =>
        intro st hquj ha
        have hd : ¬ loopDone st = true := by
          rw [loopDone_iff]
          rintro ⟨hq2, -⟩
          exact hjobs (hquj ▸ hq2)
        rw [runLoop, if_neg hd]
    | succ fuel ih =>
        intro st hquj ha
        have hd : ¬ loopDone st = true := by
          rw [loopDone_iff]
          rintro ⟨hq2, -⟩
          exact hjobs (hquj ▸ hq2)
        rw [runLoop, if_neg hd]
        obtain ⟨hsq, hsa⟩ := step_stuck cfg hP st ha (hquj ▸ hjobs)
        exact ih (step cfg st) (hsq.trans hquj) hsa
  intro fuel
  exact key fuel (initState jobs) rfl rfl

/-- Witness for C9: ceiling 0, one job, four units of fuel. -/
theorem no_capacity_no_termination_witness :
    runLoop cfgZero 4 (initState (["a"])) = none :=
  no_capacity_no_termination cfgZero (["a"]) (by decide) (by decide) 4

/-! ### Full-function helpers -/

/-- The configuration `run_jobs_in_parallel` builds for a listing. -/
def cfgFor (sim_dir : String) (np : Int) (beh : Behavior) (files : List String) : Config :=
  { sim_dir := sim_dir, num_parallel := np, beh := beh,
    total_jobs := (discoverJobs files).length }

/-- Number of all-done lines a run result carries. -/
def runAllDoneCount : Option RunResult → Nat
  | some (RunResult.finished st) => countAllDone st.events
  | _ => 0

/-- The last console event of a finished run. -/
def lastEvent : Option RunResult → Option Event
  | some (RunResult.finished st) => st.events.getLast?
  | _ => none

/-- The number of SUCCESS lines of a finished run. -/
def runSuccesses : Option RunResult → Option Nat
  | some (RunResult.finished st) => some (successCount st.events)
  | _ => none

/-- The final clock value of a finished run. -/
def finishedTime : Option RunResult → Option Nat
  | some (RunResult.finished st) => some st.time
  | _ => none

theorem run_eq_of_loop (sim_dir : String) (np : Int) (beh : Behavior)
    (files : List String) (fuel : Nat) (hjobs : discoverJobs files ≠ []) :
    run_jobs_in_parallel sim_dir np beh (some files) fuel =
      (runLoop (cfgFor sim_dir np beh files) fuel (initState (discoverJobs files))).map
        (fun st => RunResult.finished
          { st with events := st.events ++ [Event.allDone (discoverJobs files).length] }) := by
  rw [run_jobs_in_parallel]
  have hne : (discoverJobs files).isEmpty = false := by
    cases hd : discoverJobs files with
    | nil => exact absurd hd hjobs
    | cons a l => rfl
  simp only [hne, Bool.false_eq_true, if_false]
  rfl

theorem run_finished_cases (sim_dir : String) (np : Int) (beh : Behavior)
    (files : List String) (fuel : Nat) (x : SchedState)
    (h : run_jobs_in_parallel sim_dir np beh (some files) fuel =
      some (RunResult.finished x)) :
    ∃ final, runLoop (cfgFor sim_dir np beh files) fuel (initState (discoverJobs files)) =
        some final ∧
      x = { final with
              events := final.events ++ [Event.allDone (discoverJobs files).length] } := by
  by_cases hne : discoverJobs files = []
  · rw [run_jobs_in_parallel] at h
    have hempty : (discoverJobs files).isEmpty = true := by rw [hne]; rfl
    simp only [hempty, if_true] at h
    cases h
  · rw [run_eq_of_loop sim_dir np beh files fuel hne] at h
    cases hloop : runLoop (cfgFor sim_dir np beh files) fuel
        (initState (discoverJobs files)) with
    | none => rw [hloop] at h; cases h
    | some final =>
        rw [hloop] at h
        simp only [Option.map_some'] at h
        have h2 := Option.some.inj h
        cases h2
        exact ⟨final, rfl, rfl⟩

/-- C3 counterexample: with an empty discovery result the function returns
at line 49-51 before the loop and never prints the all-done line, so a run
exists (the empty job set, trivially with all launched processes
terminating) with zero all-done messages instead of exactly one. -/
theorem no_alldone_on_empty_discovery :
    run_jobs_in_parallel ("simulations") 8 behZero (some ([])) 5 =
      some RunResult.noJobs ∧
    runAllDoneCount (run_jobs_in_parallel ("simulations") 8 behZero (some ([])) 5) = 0 :=
  ⟨by decide, by decide⟩

/-- C3 (amended): for every nonempty discovery result and configured
ceiling `num_parallel ≥ 1`, the loop terminates (within the fuel given by
the ranking function), the final state is reached at the first iteration
with empty queue and empty running set (never earlier), and exactly one
all-done line is printed. -/
theorem scheduler_terminates (sim_dir : String) (np : Int) (beh : Behavior)
    (files : List String) (hP : 1 ≤ np) (hjobs : discoverJobs files ≠ []) :
    ∃ final n,
      run_jobs_in_parallel sim_dir np beh (some files)
        (fuelOf (cfgFor sim_dir np beh files) (initState (discoverJobs files))) =
        some (RunResult.finished
          { final with
              events := final.events ++ [Event.allDone (discoverJobs files).length] }) ∧
      countAllDone (final.events ++ [Event.allDone (discoverJobs files).length]) = 1 ∧
      final.queue = [] ∧ final.active = [] ∧
      final = stepN (cfgFor sim_dir np beh files) n (initState (discoverJobs files)) ∧
      (∀ m, m < n → loopDone (stepN (cfgFor sim_dir np beh files) m
        (initState (discoverJobs files))) = false) := by
  have hP2 : 1 ≤ (cfgFor sim_dir np beh files).num_parallel := hP
  obtain ⟨final, hfin⟩ := runLoop_terminates (cfgFor sim_dir np beh files) hP2
    (fuelOf (cfgFor sim_dir np beh files) (initState (discoverJobs files)))
    (initState (discoverJobs files)) (Nat.le_refl _)
  obtain ⟨hdone, n, hn, heqN, hmin⟩ := runLoop_eq_stepN _ _ _ final hfin
  obtain ⟨hq, ha⟩ := (loopDone_iff final).mp hdone
  have hInv : Inv (cfgFor sim_dir np beh files) (discoverJobs files) final :=
    runLoop_invariant _ _ (fun s hs => Inv_step _ _ s hs) _ _ final hfin (Inv_init _ _)
  have hcnt : countAllDone final.events = 0 := hInv.2.2.2.1
  refine ⟨final, n, ?_, ?_, hq, ha, heqN, hmin⟩
  · rw [run_eq_of_loop sim_dir np beh files _ hjobs, hfin]
    rfl
  · rw [countAllDone_append, hcnt]
    simp [countAllDone, isAllDoneEvent]

/-- Witness for the amended C3: one `.inp` file at ceiling 1. -/
theorem scheduler_terminates_witness :
    ∃ final n,
      run_jobs_in_parallel ("simulations") 1 behZero (some (["a.inp"]))
        (fuelOf (cfgFor ("simulations") 1 behZero (["a.inp"]))
          (initState (discoverJobs (["a.inp"])))) =
        some (RunResult.finished
          { final with
              events := final.events ++
                [Event.allDone (discoverJobs (["a.inp"])).length] }) ∧
      countAllDone (final.events ++ [Event.allDone (discoverJobs (["a.inp"])).length]) = 1 ∧
      final.queue = [] ∧ final.active = [] ∧
      final = stepN (cfgFor ("simulations") 1 behZero (["a.inp"])) n
        (initState (discoverJobs (["a.inp"]))) ∧
      (∀ m, m < n → loopDone (stepN (cfgFor ("simulations") 1 behZero (["a.inp"])) m
        (initState (discoverJobs (["a.inp"])))) = false) :=
  scheduler_terminates ("simulations") 1 behZero (["a.inp"]) (by decide) (by decide)

/-- The four-job listing of the specification example. -/
def filesFour : List String := ["a.inp", "b.inp", "c.inp", "d.inp"]

/-- C5 counterexample: two runs of the same four jobs at ceiling 2 — one
with all processes succeeding immediately, one with all processes failing
after two extra polling rounds — have different success counts (4 vs 0) and
different wall-clock durations, yet print the identical final line, which
mentions only the total; so the final summary reports neither successes nor
failures nor duration. -/
theorem final_summary_ignores_outcomes :
    lastEvent (run_jobs_in_parallel ("simulations") 2 behZero (some filesFour) 10) =
      some (Event.allDone 4) ∧
    lastEvent (run_jobs_in_parallel ("simulations") 2 behSlowFail (some filesFour) 10) =
      some (Event.allDone 4) ∧
    runSuccesses (run_jobs_in_parallel ("simulations") 2 behZero (some filesFour) 10) =
      some 4 ∧
    runSuccesses (run_jobs_in_parallel ("simulations") 2 behSlowFail (some filesFour) 10) =
      some 0 ∧
    finishedTime (run_jobs_in_parallel ("simulations") 2 behZero (some filesFour) 10) ≠
      finishedTime (run_jobs_in_parallel ("simulations") 2 behSlowFail (some filesFour) 10) ∧
    allDoneLine 4 = ("--- All 4 simulation jobs have been completed. ---") :=
  ⟨by decide, by decide, by decide, by decide, by decide, rfl⟩

/-- C5 (amended): when a run finishes, its final console line is the
all-done line, which reports only the total number of discovered jobs; the
success count, failure count and duration do not appear in it. -/
theorem final_summary_total_only (sim_dir : String) (np : Int) (beh : Behavior)
    (files : List String) (fuel : Nat) (st : SchedState)
    (hrun : run_jobs_in_parallel sim_dir np beh (some files) fuel =
      some (RunResult.finished st)) :
    st.events.getLast? = some (Event.allDone (discoverJobs files).length) := by
  obtain ⟨final, -, hx⟩ := run_finished_cases sim_dir np beh files fuel st hrun
  rw [hx]
  simp only
  exact List.getLast?_concat _

/-- The state of the finished one-job run, all-done line included. -/
def stOneDone : SchedState :=
  { queue := [], active := [], completed_jobs := 1, time := 30,
    events :=
      [Event.starting ("a") 1,
       Event.logOpen ("a") ("simulations/a.log") FileMode.write,
       Event.launched ("a") ("simulations") ("simulations/a.log") ("simulations/a.log"),
       Event.slept 15,
       Event.outcome ("a") true 15 1 1,
       Event.slept 15,
       Event.allDone 1] }

/-- Witness for the amended C5: the one-job run. -/
theorem final_summary_total_only_witness :
    run_jobs_in_parallel ("simulations") 1 behZero (some (["a.inp"])) 2 =
      some (RunResult.finished stOneDone) ∧
    stOneDone.events.getLast? = some (Event.allDone (discoverJobs (["a.inp"])).length) :=
  ⟨by decide,
   final_summary_total_only ("simulations") 1 behZero (["a.inp"]) 2 stOneDone (by decide)⟩

/-- Final loop state of `runLoop cfgOne 2 (initState ["a"])`. -/
def finalOne : SchedState :=
  { queue := [], active := [], completed_jobs := 1, time := 30,
    events :=
      [Event.starting ("a") 1,
       Event.logOpen ("a") ("simulations/a.log") FileMode.write,
       Event.launched ("a") ("simulations") ("simulations/a.log") ("simulations/a.log"),
       Event.slept 15,
       Event.outcome ("a") true 15 1 1,
       Event.slept 15] }

/-- C7 counterexample: in the one-job run the last retirement leaves queue
and running set both empty, yet the trace still ends with a sleep: the loop
sleeps unconditionally at the end of every iteration (line 116) and only
tests emptiness at the top of the next one, instead of exiting immediately
after the admission phase as claimed. -/
theorem sleep_after_final_retirement :
    runLoop cfgOne 2 (initState (["a"])) = some finalOne ∧
    finalOne.events.getLast? = some (Event.slept 15) ∧
    finalOne.queue = [] ∧ finalOne.active = [] :=
  ⟨by decide, by decide, rfl, rfl⟩

/-- C7 (amended): every executed iteration appends, in order, the outcome
lines of the finished processes, then the admission events for a prefix of
the queue, then exactly one 15-unit sleep — unconditionally, even when
queue and running set are already empty; the loop then re-checks the guard
at the top of the next iteration. -/
theorem iteration_shape (cfg : Config) (st : SchedState) (h : loopDone st = false) :
    (∃ k, (step cfg st).events =
      st.events ++
        outcomeEvents cfg st.time (st.active.filter pollDone) st.completed_jobs ++
        launchEvents cfg (st.active.filter (fun r => !(pollDone r))).length
          (st.queue.take k) ++
        [Event.slept 15]) ∧
    (∀ fuel, runLoop cfg (fuel + 1) st = runLoop cfg fuel (step cfg st)) := by
  constructor
  · obtain ⟨k, hk, heq, -, -⟩ := fillPhase_spec cfg (retirePhase cfg st)
    refine ⟨k, ?_⟩
    have h1 : (retirePhase cfg st).events =
        st.events ++ outcomeEvents cfg st.time (st.active.filter pollDone)
          st.completed_jobs := by rw [retirePhase_eq]
    have h2 : (retirePhase cfg st).active =
        st.active.filter (fun r => !(pollDone r)) := by rw [retirePhase_eq]
    have h3 : (retirePhase cfg st).queue = st.queue := by rw [retirePhase_eq]
    show (sleepPhase (fillPhase cfg (retirePhase cfg st))).events = _
    rw [sleepPhase, heq]
    simp only
    rw [h1, h2, h3]
  · intro fuel
    have hneg : ¬ loopDone st = true := by simp [h]
    rw [runLoop, if_neg hneg]

/-- Witness for the amended C7: the initial state of the one-job run. -/
theorem iteration_shape_witness :
    loopDone (initState (["a"])) = false ∧
    ((∃ k, (step cfgOne (initState (["a"]))).events =
      (initState (["a"])).events ++
        outcomeEvents cfgOne (initState (["a"])).time
          ((initState (["a"])).active.filter pollDone)
          (initState (["a"])).completed_jobs ++
        launchEvents cfgOne
          ((initState (["a"])).active.filter (fun r => !(pollDone r))).length
          ((initState (["a"])).queue.take k) ++
        [Event.slept 15]) ∧
     (∀ fuel, runLoop cfgOne (fuel + 1) (initState (["a"])) =
       runLoop cfgOne fuel (step cfgOne (initState (["a"]))))) :=
  ⟨by decide, iteration_shape cfgOne (initState (["a"])) (by decide)⟩

/-- Launch of job `a` raises (log or process creation fails). -/
def fsFailA : FailSpec := { openFails := fun j => j == ("a") }

/-- The state at the moment the launch of `a` raises in a two-job run. -/
def stErrA : SchedState :=
  { queue := [("b")], active := [], completed_jobs := 0, time := 0,
    events := [Event.starting ("a") 1] }

/-- C4 counterexample: when creating the log artifact or process for job
`a` raises, the exception is unhandled (there is no `try` around lines
102-108), so the run aborts at once: no warning is reported, job `b` —
still queued — is never admitted, and `a` is never accounted.  The claim
that the scheduler skips the job with a warning and continues is false. -/
theorem launch_failure_aborts_run :
    runLoopE cfgTwo fsFailA 5 (initState (["a", "b"])) =
      some (Except.error (("a"), stErrA)) ∧
    (startNames stErrA.events).count ("b") = 0 ∧
    (outcomeNames stErrA.events).count ("a") = 0 ∧
    (launchedNames stErrA.events).count ("a") = 0 :=
  ⟨by decide, by decide, by decide, by decide⟩

/-- C4 (amended): a failure to create the log artifact or the process for a
job is not recovered: the exception propagates out of the loop and ends the
run immediately.  At that point the failing job has a starting line but no
process and no accounting, and (for duplicate-free discovery) none of the
still-queued jobs has been admitted; only the discovery error of lines
44-47 is handled. -/
theorem launch_failure_propagates (cfg : Config) (fs : FailSpec) (fuel : Nat)
    (jobs : List String) (hnd : jobs.Nodup) (j : String) (stE : SchedState)
    (hrun : runLoopE cfg fs fuel (initState jobs) = some (Except.error (j, stE))) :
    fs.openFails j = true ∧
    (startNames stE.events).count j = 1 ∧
    (launchedNames stE.events).count j = 0 ∧
    (outcomeNames stE.events).count j = 0 ∧
    (∀ i ∈ stE.queue, (startNames stE.events).count i = 0) := by
  obtain ⟨m, hm1, hm2⟩ := runLoopE_error cfg fs fuel _ j stE hrun
  have hInv : Inv cfg jobs (stepN cfg m (initState jobs)) :=
    stepN_invariant cfg (Inv cfg jobs) (fun s hs => Inv_step cfg jobs s hs) m
      (initState jobs) (Inv_init cfg jobs)
  set st0 := stepN cfg m (initState jobs) with hst0
  obtain ⟨h1, h2, h3, h4, h5, h6, h7⟩ := hInv
  have hfillerr := stepE_error cfg fs st0 j stE hm2
  obtain ⟨hfail, k, hdrop, hevents, hactive⟩ := fillAuxE_error cfg fs _ _ j stE hfillerr
  have hq1 : (retirePhase cfg st0).queue = st0.queue := by rw [retirePhase_eq]
  have hstart1 : startNames (retirePhase cfg st0).events = startNames st0.events := by
    rw [retirePhase_eq]
    simp [startNames_append, startNames_outcomeEvents]
  have hlaunched1 : launchedNames (retirePhase cfg st0).events =
      launchedNames st0.events := by
    rw [retirePhase_eq]
    simp [launchedNames_append, launchedNames_outcomeEvents]
  have houtcome1 : outcomeNames (retirePhase cfg st0).events =
      outcomeNames st0.events ++
        (st0.active.filter pollDone).map RunningJob.job_name := by
    rw [retirePhase_eq]
    simp [outcomeNames_append, outcomeNames_outcomeEvents]
  rw [hq1] at hdrop
  have hstartE : startNames stE.events =
      (startNames st0.events ++ st0.queue.take k) ++ [j] := by
    rw [hevents, startNames_append, startNames_append, hstart1,
      startNames_launchEvents, hq1]
    simp [startNames, startName?, List.append_assoc]
  have hlaunchedE : launchedNames stE.events =
      startNames st0.events ++ st0.queue.take k := by
    rw [hevents, launchedNames_append, launchedNames_append, hlaunched1,
      launchedNames_launchEvents, hq1, h5]
    simp [launchedNames, launchedName?]
  have houtcomeE : outcomeNames stE.events =
      outcomeNames st0.events ++
        (st0.active.filter pollDone).map RunningJob.job_name := by
    rw [hevents, outcomeNames_append, outcomeNames_append, houtcome1,
      outcomeNames_launchEvents]
    simp [outcomeNames, outcomeName?]
  have hqsplit : st0.queue = st0.queue.take k ++ (j :: stE.queue) := by
    conv_lhs => rw [← List.take_append_drop k st0.queue]
    rw [hdrop]
  have hjobs2 : jobs = (startNames st0.events ++ st0.queue.take k ++ [j]) ++ stE.queue := by
    conv_lhs => rw [← h1, hqsplit]
    simp [List.append_assoc]
  have hndJ : ((startNames st0.events ++ st0.queue.take k ++ [j]) ++ stE.queue).Nodup := by
    rw [← hjobs2]
    exact hnd
  have hndL : (startNames st0.events ++ st0.queue.take k ++ [j]).Nodup :=
    hndJ.of_append_left
  have hdisj := List.disjoint_of_nodup_append hndJ
  have hndL2 : ((startNames st0.events ++ st0.queue.take k) ++ [j]).Nodup := by
    simpa [List.append_assoc] using hndL
  have hjnotpre : j ∉ startNames st0.events ++ st0.queue.take k := by
    intro hmem
    exact List.disjoint_of_nodup_append hndL2 hmem (List.mem_singleton_self j)
  refine ⟨hfail, ?_, ?_, ?_, ?_⟩
  · rw [hstartE, List.count_append,
      List.count_eq_zero_of_not_mem hjnotpre]
    simp
  · rw [hlaunchedE]
    exact List.count_eq_zero_of_not_mem hjnotpre
  · rw [houtcomeE, List.count_append]
    have hjnotstart : j ∉ startNames st0.events :=
      fun hmem => hjnotpre (List.mem_append_left _ hmem)
    have hcs : (startNames st0.events).count j = 0 :=
      List.count_eq_zero_of_not_mem hjnotstart
    have h2j := h2 j
    have hsplitcnt :
        ((st0.active.filter pollDone).map RunningJob.job_name).count j +
          ((st0.active.filter (fun r => !(pollDone r))).map RunningJob.job_name).count j =
          (st0.active.map RunningJob.job_name).count j := by
      have hperm := (List.filter_append_perm pollDone st0.active).map RunningJob.job_name
      have hcnt := hperm.count_eq j
      rw [List.map_append, List.count_append] at hcnt
      exact hcnt
    omega
  · intro i hi
    rw [hstartE]
    have hnotin : i ∉ startNames st0.events ++ st0.queue.take k ++ [j] :=
      fun hmem => hdisj hmem hi
    have hnotin2 : i ∉ (startNames st0.events ++ st0.queue.take k) ++ [j] := by
      simpa [List.append_assoc] using hnotin
    exact List.count_eq_zero_of_not_mem hnotin2

/-- Witness for the amended C4: the aborted two-job run. -/
theorem launch_failure_propagates_witness :
    (["a", "b"] : List String).Nodup ∧
    runLoopE cfgTwo fsFailA 5 (initState (["a", "b"])) =
      some (Except.error (("a"), stErrA)) ∧
    (fsFailA.openFails ("a") = true ∧
     (startNames stErrA.events).count ("a") = 1 ∧
     (launchedNames stErrA.events).count ("a") = 0 ∧
     (outcomeNames stErrA.events).count ("a") = 0 ∧
     (∀ i ∈ stErrA.queue, (startNames stErrA.events).count i = 0)) :=
  ⟨by decide, by decide,
   launch_failure_propagates cfgTwo fsFailA 5 (["a", "b"]) (by decide) ("a") stErrA
     (by decide)⟩

/-- C10: for every nonnegative duration `s` (Python floats modelled as
rationals), `format_duration s` is the minutes-and-seconds string with
`m = ⌊s / 60⌋` and `k = ⌊s mod 60⌋ = ⌊s - 60·m⌋`, and these satisfy
`0 ≤ k < 60` and `60·m + k = ⌊s⌋`. -/
theorem format_duration_spec (s : ℚ) (hs : 0 ≤ s) :
    format_duration s =
      toString ⌊s / 60⌋ ++ ("m ") ++ toString ⌊s - 60 * ((⌊s / 60⌋ : ℤ) : ℚ)⌋ ++ ("s") ∧
    0 ≤ ⌊s - 60 * ((⌊s / 60⌋ : ℤ) : ℚ)⌋ ∧
    ⌊s - 60 * ((⌊s / 60⌋ : ℤ) : ℚ)⌋ < 60 ∧
    60 * ⌊s / 60⌋ + ⌊s - 60 * ((⌊s / 60⌋ : ℤ) : ℚ)⌋ = ⌊s⌋ := by
  have hm0 : 0 ≤ ⌊s / 60⌋ := Int.floor_nonneg.mpr (by positivity)
  have hfl : ((⌊s / 60⌋ : ℤ) : ℚ) ≤ s / 60 := Int.floor_le _
  have hub : s / 60 < ((⌊s / 60⌋ : ℤ) : ℚ) + 1 := Int.lt_floor_add_one _
  have h60 : (60 : ℚ) * (s / 60) = s := by ring
  have hsec0 : 0 ≤ s - 60 * ((⌊s / 60⌋ : ℤ) : ℚ) := by nlinarith
  have hseclt : s - 60 * ((⌊s / 60⌋ : ℤ) : ℚ) < 60 := by nlinarith
  refine ⟨?_, Int.floor_nonneg.mpr hsec0, ?_, ?_⟩
  · unfold format_duration intTrunc
    have h1 : ¬ (((⌊s / 60⌋ : ℤ) : ℚ) < 0) := by
      rw [not_lt]
      exact_mod_cast hm0
    have h2 : ¬ (s - 60 * ((⌊s / 60⌋ : ℤ) : ℚ) < 0) := not_lt.mpr hsec0
    simp only [h1, h2, if_false, Int.floor_intCast]
  · refine Int.floor_lt.mpr ?_
    push_cast
    exact hseclt
  · have heq : s - 60 * ((⌊s / 60⌋ : ℤ) : ℚ) = s - ((60 * ⌊s / 60⌋ : ℤ) : ℚ) := by
      push_cast
      ring
    rw [heq, Int.floor_sub_int]
    omega

/-- Witness for C10 at 125 seconds: two minutes, five seconds. -/
theorem format_duration_witness :
    (0 : ℚ) ≤ 125 ∧ format_duration 125 = ("2m 5s") ∧
    60 * ⌊(125 : ℚ) / 60⌋ + ⌊(125 : ℚ) - 60 * ((⌊(125 : ℚ) / 60⌋ : ℤ) : ℚ)⌋ =
      ⌊(125 : ℚ)⌋ := by
  have h := format_duration_spec 125 (by norm_num)
  refine ⟨by norm_num, ?_, h.2.2.2⟩
  rw [h.1]
  rw [show ⌊(125 : ℚ) / 60⌋ = 2 by norm_num [Int.floor_eq_iff]]
  rw [show ⌊(125 : ℚ) - 60 * (((2 : ℤ) : ℚ))⌋ = 5 by norm_num [Int.floor_eq_iff]]
  rfl

end SimulationRun
